import Mathlib

/-!
Verification of the fixed-point amount arithmetic of the solana-kit SDK.

The development shallowly embeds the two arithmetic/formatting modules of the
repository:

* `src/utils/amountMath.ts` — `toBigInt`, `applyBps`, `splitAmountByBps`,
  `isMultipleOfStep`, working on JavaScript `bigint` values (modelled as `Int`,
  with `Int.tdiv`/`Int.tmod` for the truncating `bigint` division/remainder);
* `src/utils/formatting.ts` — `formatTokenAmount`, `parseTokenAmount`,
  `calculateFee`, `calculateAmountAfterFee`, working on bn.js `BN` values.

JavaScript strings are modelled as `List Char`.  Fallible functions (those that
`throw`) return `Option`; `none` models a thrown error.  The formatting claims
quantify over non-negative amounts only, so `formatTokenAmount` and
`parseTokenAmount` are embedded over `Nat` (a non-negative `BN`); the
amount-math functions, whose inputs may be negative, are embedded over `Int`.
-/

namespace SolanaKit

/-! ### Decimal digit characters -/

/-- The decimal digit character for `n < 10` (`'0'` has code 48). -/
def digitChar (n : Nat) : Char := Char.ofNat (48 + n)

/-- Numeric value of a decimal digit character. -/
def digitVal (c : Char) : Nat := c.toNat - 48

/-- Whether `c` is one of the characters `'0'`..`'9'`. -/
def isDigitChar (c : Char) : Bool := decide (48 ≤ c.toNat) && decide (c.toNat ≤ 57)

/-- Value of a big-endian string of decimal digit characters
(the number denoted by the numeral; the empty string denotes 0,
as `new BN("")` yields 0 in bn.js). -/
def digitsToNat (l : List Char) : Nat := l.foldl (fun a c => 10 * a + digitVal c) 0

/-- Little-endian decimal digits of `n`, with `fuel` bounding the recursion
(`fuel ≥ n` always suffices). Returns `[]` for `n = 0`. -/
def natDigitsRevAux : Nat → Nat → List Nat
  | 0, _ => []
  | f + 1, n => if n = 0 then [] else (n % 10) :: natDigitsRevAux f (n / 10)

/-- Little-endian decimal digits of `n` (`[]` for 0). -/
def natDigitsRev (n : Nat) : List Nat := natDigitsRevAux n n

/-- Decimal numeral of a non-negative `BN`/`bigint`, as produced by
`BN.prototype.toString(10)` / `BigInt.prototype.toString`: big-endian digits,
no leading zeros, and `"0"` for zero. -/
def bnToString (n : Nat) : List Char :=
  if n = 0 then ['0'] else ((natDigitsRev n).map digitChar).reverse

/-! ### JavaScript string helpers used by the source -/

/-- `String.prototype.padStart(width, c)`: prepend copies of `c`
until the length is `width` (a no-op when already at least `width` long). -/
def padStart (width : Nat) (c : Char) (l : List Char) : List Char :=
  List.replicate (width - l.length) c ++ l

/-- `String.prototype.padEnd(width, c)`: append copies of `c`
until the length is `width` (a no-op when already at least `width` long). -/
def padEnd (width : Nat) (c : Char) (l : List Char) : List Char :=
  l ++ List.replicate (width - l.length) c

/-- `String.prototype.replace(/0+$/, "")`: strip all trailing `'0'`
characters. -/
def stripTrailingZeros (l : List Char) : List Char :=
  (l.reverse.dropWhile (fun c => c == '0')).reverse

/-- `String.prototype.split(".")`: the (always non-empty) list of
`"."`-separated fields. `"".split(".") = [""]`, `"1.2.3".split(".") =
["1","2","3"]`. -/
def splitDot : List Char → List (List Char)
  | [] => [[]]
  | c :: rest =>
    if c = '.' then [] :: splitDot rest
    else
      match splitDot rest with
      | [] => [[c]]
      | h :: t => (c :: h) :: t

/-- Whitespace for `String.prototype.trim`: the ECMAScript WhiteSpace and
LineTerminator code points — tab, LF, VT, FF, CR, space, NBSP (U+00A0),
ZWNBSP (U+FEFF), the line separators U+2028/U+2029, and the remaining
Space_Separator code points (U+1680, U+2000–U+200A, U+202F, U+205F,
U+3000). -/
def jsWhitespace (c : Char) : Bool :=
  c == ' ' || c == '\t' || c == '\n' || c == '\r' || c == '\x0b' || c == '\x0c'
    || c.toNat == 0xA0 || c.toNat == 0xFEFF || c.toNat == 0x2028 || c.toNat == 0x2029
    || c.toNat == 0x1680 || (decide (0x2000 ≤ c.toNat) && decide (c.toNat ≤ 0x200A))
    || c.toNat == 0x202F || c.toNat == 0x205F || c.toNat == 0x3000

/-- `String.prototype.trim()`: drop leading and trailing whitespace. -/
def jsTrim (l : List Char) : List Char :=
  ((l.dropWhile jsWhitespace).reverse.dropWhile jsWhitespace).reverse

/-! ### `BigInt(string)` — ECMAScript `StringToBigInt`

`toBigInt` (amountMath.ts) delegates string conversion to the native
`BigInt(string)` constructor.  After trimming, the accepted grammar is: the
empty string (value 0); an optionally `+`/`-`-signed non-empty decimal digit
string; or a `0x`/`0X`, `0o`/`0O`, `0b`/`0B` prefix followed by a non-empty
string of digits of that radix.  Anything else throws a `SyntaxError`,
modelled as `none`. -/

/-- Value of a hexadecimal digit character, `none` for other characters. -/
def hexDigitVal (c : Char) : Option Nat :=
  if 48 ≤ c.toNat ∧ c.toNat ≤ 57 then some (c.toNat - 48)
  else if 97 ≤ c.toNat ∧ c.toNat ≤ 102 then some (c.toNat - 87)
  else if 65 ≤ c.toNat ∧ c.toNat ≤ 70 then some (c.toNat - 55)
  else none

/-- Value of a digit character below radix `r` (`r ≤ 16`), `none` otherwise. -/
def radixDigitVal (r : Nat) (c : Char) : Option Nat :=
  (hexDigitVal c).bind (fun v => if v < r then some v else none)

/-- Big-endian radix-`r` numeral value; `none` when empty or when any
character is not a radix-`r` digit. -/
def radixValue (r : Nat) (l : List Char) : Option Nat :=
  if l = [] then none
  else l.foldl (fun acc c => acc.bind fun a => (radixDigitVal r c).map fun v => r * a + v)
    (some 0)

/-- ECMAScript `StringToBigInt` on an already-trimmed string. -/
def jsStringToBigInt (l : List Char) : Option Int :=
  match l with
  | [] => some 0
  | c :: rest =>
    if c = '+' then (radixValue 10 rest).map Int.ofNat
    else if c = '-' then (radixValue 10 rest).map (fun n => -(Int.ofNat n))
    else if c = '0' then
      match rest with
      | [] => some 0
      | c2 :: rest2 =>
        if c2 = 'x' ∨ c2 = 'X' then (radixValue 16 rest2).map Int.ofNat
        else if c2 = 'o' ∨ c2 = 'O' then (radixValue 8 rest2).map Int.ofNat
        else if c2 = 'b' ∨ c2 = 'B' then (radixValue 2 rest2).map Int.ofNat
        else (radixValue 10 (c :: rest)).map Int.ofNat
    else (radixValue 10 (c :: rest)).map Int.ofNat

/-! ### amountMath.ts -/

/-- `toBigInt` (amountMath.ts), string branch: trim, reject any string
containing a `"."`, then convert with the native `BigInt` constructor
(whose failures are also modelled as `none`).  The `bigint` and `number`
branches of the source are identities on the model type `Int`
(numbers being truncated toward zero first) and are not separately embedded. -/
def toBigIntStr (s : List Char) : Option Int :=
  let trimmed := jsTrim s
  if trimmed.contains '.' then none
  else jsStringToBigInt trimmed

/-- `applyBps` (amountMath.ts): reject `bps` outside `[0, 10000]`, else
`value * bps / 10000` in `bigint` arithmetic (division truncating toward
zero).  The amount is taken already normalised to a `bigint`. -/
def applyBps (amount : Int) (bps : Int) : Option Int :=
  if bps < 0 ∨ bps > 10000 then none
  else some ((amount * bps).tdiv 10000)

/-- `splitAmountByBps` (amountMath.ts): reject `buyerBps` outside
`[0, 10000]`, else `buyer = applyBps(value, buyerBps)` and
`seller = value - buyer`. -/
def splitAmountByBps (total : Int) (buyerBps : Int) : Option (Int × Int) :=
  if buyerBps < 0 ∨ buyerBps > 10000 then none
  else (applyBps total buyerBps).map (fun buyer => (buyer, total - buyer))

/-- `isMultipleOfStep` (amountMath.ts): reject `step ≤ 0`, else whether
`amount % step == 0` (`%` being the `bigint` remainder, truncating). -/
def isMultipleOfStep (amount : Int) (step : Int) : Option Bool :=
  if step ≤ 0 then none
  else some (amount.tmod step == 0)

/-! ### formatting.ts -/

/-- `formatTokenAmount` (formatting.ts) for a non-negative amount: divide by
`10^decimals`, left-pad the remainder's numeral to `decimals` digits, strip
trailing zeros, and append `"." ++ fraction` to the quotient's numeral unless
the stripped fraction is empty. -/
def formatTokenAmount (lamports : Nat) (decimals : Nat) : List Char :=
  let divisor := 10 ^ decimals
  let quotient := lamports / divisor
  let remainder := lamports % divisor
  let remainderStr := padStart decimals '0' (bnToString remainder)
  let trimmed := stripTrailingZeros remainderStr
  if trimmed = [] then bnToString quotient
  else bnToString quotient ++ '.' :: trimmed

/-- `new BN(string)` for a base-10 string of an amount part: bn.js accepts a
string of decimal digits (the empty string yielding 0) and throws
`Error("Invalid character")` on any other character, modelled as `none`.
(The claims only ever reach this constructor with sign-free strings.) -/
def bnOfDigits (l : List Char) : Option Nat :=
  if l.all isDigitChar then some (digitsToNat l) else none

/-- `parseTokenAmount` (formatting.ts): split on `"."`; the first field is the
whole part, the second (defaulting to `"0"` when absent) the fraction; fields
beyond the second are ignored by the destructuring.  The fraction is
right-padded with `'0'` and truncated to exactly `decimals` digits; the result
is `whole * 10^decimals + fraction`. -/
def parseTokenAmount (amount : List Char) (decimals : Nat) : Option Nat :=
  let parts := splitDot amount
  let whole := parts.headD ['0']
  let fraction := (parts.get? 1).getD ['0']
  let paddedFraction := (padEnd decimals '0' fraction).take decimals
  (bnOfDigits whole).bind fun w =>
    (bnOfDigits paddedFraction).map fun f => w * 10 ^ decimals + f

/-- `calculateFee` (formatting.ts): `amount * feeBps / 10000` in `BN`
arithmetic (division truncating toward zero), with no validation of
`feeBps`. -/
def calculateFee (amount : Int) (feeBps : Int) : Int :=
  (amount * feeBps).tdiv 10000

/-- `calculateAmountAfterFee` (formatting.ts): `amount - calculateFee`. -/
def calculateAmountAfterFee (amount : Int) (feeBps : Int) : Int :=
  amount - calculateFee amount feeBps

/-! ### Digit machinery lemmas -/

/-- Value of a little-endian digit list (proof helper). -/
def valOfRevDigits : List Nat → Nat
  | [] => 0
  | d :: t => d + 10 * valOfRevDigits t

theorem digitVal_digitChar {d : Nat} (h : d < 10) : digitVal (digitChar d) = d := by
  interval_cases d <;> rfl

theorem isDigitChar_digitChar {d : Nat} (h : d < 10) : isDigitChar (digitChar d) = true := by
  interval_cases d <;> rfl

theorem valOfRevDigits_natDigitsRevAux :
    ∀ (f n : Nat), n ≤ f → valOfRevDigits (natDigitsRevAux f n) = n := by
  intro f
  induction f with
  | zero => intro n hn; interval_cases n; rfl
  | succ f ih =>
    intro n hn
    rw [natDigitsRevAux]
    by_cases h0 : n = 0
    · simp [h0, valOfRevDigits]
    · have hdiv : n / 10 ≤ f := by
        have : n / 10 < n := Nat.div_lt_self (Nat.pos_of_ne_zero h0) (by omega)
        omega
      simp only [h0, if_false, valOfRevDigits, ih _ hdiv]
      omega

theorem mem_natDigitsRevAux_lt :
    ∀ (f n d : Nat), d ∈ natDigitsRevAux f n → d < 10 := by
  intro f
  induction f with
  | zero => intro n d h; simp [natDigitsRevAux] at h
  | succ f ih =>
    intro n d h
    rw [natDigitsRevAux] at h
    by_cases h0 : n = 0
    · simp [h0] at h
    · simp only [h0, if_false, List.mem_cons] at h
      rcases h with h | h
      · omega
      · exact ih _ _ h

theorem natDigitsRevAux_length_le :
    ∀ (f n k : Nat), n ≤ f → n < 10 ^ k → (natDigitsRevAux f n).length ≤ k := by
  intro f
  induction f with
  | zero => intro n k hn _; interval_cases n; simp [natDigitsRevAux]
  | succ f ih =>
    intro n k hn hk
    rw [natDigitsRevAux]
    by_cases h0 : n = 0
    · simp [h0]
    · have hkpos : k ≠ 0 := by
        intro h; subst h; simp at hk; omega
      have hdiv : n / 10 ≤ f := by
        have : n / 10 < n := Nat.div_lt_self (Nat.pos_of_ne_zero h0) (by omega)
        omega
      have hdivk : n / 10 < 10 ^ (k - 1) := by
        have h10 : 10 ^ k = 10 ^ (k - 1) * 10 := by
          rw [← Nat.pow_succ]; congr 1; omega
        rw [h10] at hk
        exact Nat.div_lt_of_lt_mul (by omega)
      simp only [h0, if_false, List.length_cons]
      have := ih _ _ hdiv hdivk
      omega

theorem digitsToNat_foldl (l : List Char) :
    ∀ a : Nat, l.foldl (fun a c => 10 * a + digitVal c) a
      = a * 10 ^ l.length + digitsToNat l := by
  induction l with
  | nil => intro a; simp [digitsToNat]
  | cons c t ih =>
    intro a
    have h1 : digitsToNat (c :: t) = digitVal c * 10 ^ t.length + digitsToNat t := by
      unfold digitsToNat
      rw [List.foldl_cons, ih (10 * 0 + digitVal c)]
      have h2 : 10 * 0 + digitVal c = digitVal c := by omega
      rw [h2]
      rfl
    rw [List.foldl_cons, ih (10 * a + digitVal c), h1, List.length_cons]
    ring

theorem digitsToNat_append (xs ys : List Char) :
    digitsToNat (xs ++ ys) = digitsToNat xs * 10 ^ ys.length + digitsToNat ys := by
  unfold digitsToNat
  rw [List.foldl_append]
  exact digitsToNat_foldl ys _

theorem digitsToNat_revmap (L : List Nat) (h : ∀ d ∈ L, d < 10) :
    digitsToNat ((L.map digitChar).reverse) = valOfRevDigits L := by
  induction L with
  | nil => rfl
  | cons d t ih =>
    have hd : d < 10 := h d (List.mem_cons_self d t)
    have ht : ∀ x ∈ t, x < 10 := fun x hx => h x (List.mem_cons_of_mem _ hx)
    simp only [List.map_cons, List.reverse_cons, valOfRevDigits]
    rw [digitsToNat_append, ih ht]
    have h1 : digitsToNat [digitChar d] = d := by
      unfold digitsToNat
      rw [List.foldl_cons, List.foldl_nil, digitVal_digitChar hd]
      omega
    rw [h1]
    have h2 : ([digitChar d] : List Char).length = 1 := rfl
    rw [h2]
    ring

theorem digitsToNat_bnToString (n : Nat) : digitsToNat (bnToString n) = n := by
  by_cases h0 : n = 0
  · subst h0; rfl
  · have h1 : bnToString n = ((natDigitsRev n).map digitChar).reverse := by
      unfold bnToString; simp [h0]
    rw [h1, digitsToNat_revmap (natDigitsRev n) (fun d hd => mem_natDigitsRevAux_lt n n d hd)]
    exact valOfRevDigits_natDigitsRevAux n n (Nat.le_refl n)

theorem mem_bnToString_isDigit {n : Nat} {c : Char} (h : c ∈ bnToString n) :
    isDigitChar c = true := by
  unfold bnToString at h
  by_cases h0 : n = 0
  · simp [h0] at h; subst h; rfl
  · simp only [h0, if_false, List.mem_reverse, List.mem_map] at h
    obtain ⟨d, hd, rfl⟩ := h
    exact isDigitChar_digitChar (mem_natDigitsRevAux_lt n n d hd)

theorem bnToString_length_le {n k : Nat} (hn : n ≠ 0) (hk : n < 10 ^ k) :
    (bnToString n).length ≤ k := by
  unfold bnToString
  simp only [hn, if_false, List.length_reverse, List.length_map]
  exact natDigitsRevAux_length_le n n k (Nat.le_refl n) hk

theorem bnToString_ne_nil (n : Nat) : bnToString n ≠ [] := by
  unfold bnToString
  by_cases h0 : n = 0
  · simp [h0]
  · simp only [h0, if_false]
    intro h
    have h2 : natDigitsRev n = [] := by
      have := congrArg List.reverse h
      simp at this
      exact this
    have h3 := valOfRevDigits_natDigitsRevAux n n (Nat.le_refl n)
    rw [show natDigitsRevAux n n = natDigitsRev n from rfl, h2] at h3
    exact h0 (by simpa [valOfRevDigits] using h3.symm)

/-! ### String helper lemmas -/

theorem digitsToNat_all_zero {l : List Char} (h : ∀ c ∈ l, c = '0') :
    digitsToNat l = 0 := by
  induction l with
  | nil => rfl
  | cons c t ih =>
    have hc : c = '0' := h c (List.mem_cons_self c t)
    have h1 : digitsToNat (c :: t) = digitVal c * 10 ^ t.length + digitsToNat t := by
      unfold digitsToNat
      rw [List.foldl_cons, digitsToNat_foldl]
      have h2 : 10 * 0 + digitVal c = digitVal c := by omega
      rw [h2]
      rfl
    rw [h1, ih (fun x hx => h x (List.mem_cons_of_mem _ hx)), hc]
    have h4 : digitVal '0' = 0 := rfl
    rw [h4]
    simp

theorem digitsToNat_replicate_zero (m : Nat) :
    digitsToNat (List.replicate m '0') = 0 :=
  digitsToNat_all_zero (fun _ hc => List.eq_of_mem_replicate hc)

theorem digitsToNat_zeros_append (m : Nat) (l : List Char) :
    digitsToNat (List.replicate m '0' ++ l) = digitsToNat l := by
  rw [digitsToNat_append, digitsToNat_replicate_zero]
  omega

theorem digitsToNat_padStart (d : Nat) (l : List Char) :
    digitsToNat (padStart d '0' l) = digitsToNat l :=
  digitsToNat_zeros_append _ l

theorem stripTrailingZeros_eq_nil_iff (l : List Char) :
    stripTrailingZeros l = [] ↔ ∀ c ∈ l, c = '0' := by
  unfold stripTrailingZeros
  rw [List.reverse_eq_nil_iff, List.dropWhile_eq_nil_iff]
  constructor
  · intro h c hc
    have := h c (List.mem_reverse.mpr hc)
    simpa using this
  · intro h c hc
    simp [h c (List.mem_reverse.mp hc)]

theorem stripTrailingZeros_spec (l : List Char) :
    ∃ k, l = stripTrailingZeros l ++ List.replicate k '0' := by
  refine ⟨(l.reverse.takeWhile (fun c => c == '0')).length, ?_⟩
  have h1 : l.reverse.takeWhile (fun c => c == '0') ++ l.reverse.dropWhile (fun c => c == '0')
      = l.reverse := List.takeWhile_append_dropWhile _ _
  have h2 : l.reverse.takeWhile (fun c => c == '0')
      = List.replicate (l.reverse.takeWhile (fun c => c == '0')).length '0' := by
    apply List.eq_replicate_of_mem
    intro c hc
    have := List.mem_takeWhile_imp hc
    simpa using this
  have h3 := congrArg List.reverse h1
  rw [List.reverse_append, List.reverse_reverse] at h3
  conv_lhs => rw [← h3]
  rw [stripTrailingZeros]
  congr 1
  rw [h2, List.reverse_replicate, List.length_replicate]

theorem mem_stripTrailingZeros {c : Char} {l : List Char}
    (h : c ∈ stripTrailingZeros l) : c ∈ l := by
  unfold stripTrailingZeros at h
  rw [List.mem_reverse] at h
  have := (List.dropWhile_sublist (l := l.reverse) (p := fun c => c == '0')).mem h
  exact List.mem_reverse.mp this

theorem splitDot_no_dot {l : List Char} (h : '.' ∉ l) : splitDot l = [l] := by
  induction l with
  | nil => rfl
  | cons c t ih =>
    have hc : c ≠ '.' := fun hcc => h (hcc ▸ List.mem_cons_self c t)
    have ht : '.' ∉ t := fun htt => h (List.mem_cons_of_mem _ htt)
    rw [splitDot]
    simp only [if_neg (fun hcc => hc (by simpa using hcc)), ih ht]

theorem splitDot_append {xs : List Char} (ys : List Char) (h : '.' ∉ xs) :
    splitDot (xs ++ '.' :: ys) = xs :: splitDot ys := by
  induction xs with
  | nil =>
    rw [List.nil_append, splitDot]
    simp
  | cons c t ih =>
    have hc : c ≠ '.' := fun hcc => h (hcc ▸ List.mem_cons_self c t)
    have ht : '.' ∉ t := fun htt => h (List.mem_cons_of_mem _ htt)
    rw [List.cons_append, splitDot]
    simp only [if_neg (fun hcc => hc (by simpa using hcc)), ih ht]

theorem isDigitChar_ne_dot {c : Char} (h : isDigitChar c = true) : c ≠ '.' := by
  intro hc
  subst hc
  simp [isDigitChar] at h

/-! ### `parseTokenAmount` evaluation lemmas -/

theorem bnOfDigits_of_digits {l : List Char} (h : ∀ c ∈ l, isDigitChar c) :
    bnOfDigits l = some (digitsToNat l) := by
  unfold bnOfDigits
  rw [if_pos (List.all_eq_true.mpr h)]

theorem mem_padEnd_take {c : Char} {f : List Char} {d : Nat}
    (h : c ∈ (padEnd d '0' f).take d) : c ∈ f ∨ c = '0' := by
  have h1 := List.mem_of_mem_take h
  unfold padEnd at h1
  rcases List.mem_append.mp h1 with h2 | h2
  · exact Or.inl h2
  · exact Or.inr (List.eq_of_mem_replicate h2)

theorem parseTokenAmount_no_dot {w : List Char} (d : Nat)
    (hw : ∀ c ∈ w, isDigitChar c) :
    parseTokenAmount w d = some (digitsToNat w * 10 ^ d) := by
  have hdot : '.' ∉ w := fun hm => isDigitChar_ne_dot (hw _ hm) rfl
  unfold parseTokenAmount
  rw [splitDot_no_dot hdot]
  have hfrac : ∀ c ∈ (padEnd d '0' ['0']).take d, isDigitChar c := by
    intro c hc
    rcases mem_padEnd_take hc with h | h
    · simp at h; subst h; rfl
    · subst h; rfl
  have hfrac0 : digitsToNat ((padEnd d '0' ['0']).take d) = 0 := by
    apply digitsToNat_all_zero
    intro c hc
    rcases mem_padEnd_take hc with h | h
    · simpa using h
    · exact h
  simp only [List.headD, List.get?, Option.getD]
  rw [bnOfDigits_of_digits hw, bnOfDigits_of_digits hfrac]
  simp [hfrac0]

theorem parseTokenAmount_with_dot {w f : List Char} (d : Nat)
    (hw : ∀ c ∈ w, isDigitChar c) (hf : ∀ c ∈ f, isDigitChar c) :
    parseTokenAmount (w ++ '.' :: f) d
      = some (digitsToNat w * 10 ^ d + digitsToNat ((padEnd d '0' f).take d)) := by
  have hdotw : '.' ∉ w := fun hm => isDigitChar_ne_dot (hw _ hm) rfl
  have hdotf : '.' ∉ f := fun hm => isDigitChar_ne_dot (hf _ hm) rfl
  unfold parseTokenAmount
  rw [splitDot_append f hdotw, splitDot_no_dot hdotf]
  have hfrac : ∀ c ∈ (padEnd d '0' f).take d, isDigitChar c := by
    intro c hc
    rcases mem_padEnd_take hc with h | h
    · exact hf c h
    · subst h; rfl
  simp only [List.headD, List.get?, Option.getD]
  rw [bnOfDigits_of_digits hw, bnOfDigits_of_digits hfrac]
  rfl

/-! ### Round-trip: `parseTokenAmount ∘ formatTokenAmount` -/

theorem padStart_length {d : Nat} {l : List Char} (h : l.length ≤ d) :
    (padStart d '0' l).length = d := by
  unfold padStart
  rw [List.length_append, List.length_replicate]
  omega

theorem mem_padStart {c : Char} {d : Nat} {l : List Char}
    (h : c ∈ padStart d '0' l) : c ∈ l ∨ c = '0' := by
  unfold padStart at h
  rcases List.mem_append.mp h with h1 | h1
  · exact Or.inr (List.eq_of_mem_replicate h1)
  · exact Or.inl h1

theorem parse_format_roundtrip (a d : Nat) :
    parseTokenAmount (formatTokenAmount a d) d = some a := by
  have hdivpos : 0 < 10 ^ d := Nat.pos_pow_of_pos d (by omega)
  have hmod : a % 10 ^ d < 10 ^ d := Nat.mod_lt a hdivpos
  have hdm : 10 ^ d * (a / 10 ^ d) + a % 10 ^ d = a := Nat.div_add_mod a (10 ^ d)
  have hqdigits : ∀ c ∈ bnToString (a / 10 ^ d), isDigitChar c :=
    fun _ hc => mem_bnToString_isDigit hc
  by_cases hT : stripTrailingZeros (padStart d '0' (bnToString (a % 10 ^ d))) = []
  · have hfmt : formatTokenAmount a d = bnToString (a / 10 ^ d) := by
      simp only [formatTokenAmount]
      rw [if_pos hT]
    rw [hfmt, parseTokenAmount_no_dot d hqdigits, digitsToNat_bnToString]
    have hr0 : a % 10 ^ d = 0 := by
      have hall := (stripTrailingZeros_eq_nil_iff _).mp hT
      have h1 : digitsToNat (padStart d '0' (bnToString (a % 10 ^ d))) = 0 :=
        digitsToNat_all_zero hall
      rw [digitsToNat_padStart, digitsToNat_bnToString] at h1
      exact h1
    congr 1
    rw [Nat.mul_comm]
    omega
  · have hfmt : formatTokenAmount a d
        = bnToString (a / 10 ^ d)
          ++ '.' :: stripTrailingZeros (padStart d '0' (bnToString (a % 10 ^ d))) := by
      simp only [formatTokenAmount]
      rw [if_neg hT]
    have hrne : a % 10 ^ d ≠ 0 := by
      intro h0
      apply hT
      apply (stripTrailingZeros_eq_nil_iff _).mpr
      intro c hc
      rcases mem_padStart hc with h1 | h1
      · rw [h0] at h1
        simpa [bnToString] using h1
      · exact h1
    have hlen : (bnToString (a % 10 ^ d)).length ≤ d := bnToString_length_le hrne hmod
    have hlenR : (padStart d '0' (bnToString (a % 10 ^ d))).length = d := padStart_length hlen
    obtain ⟨k, hk⟩ := stripTrailingZeros_spec (padStart d '0' (bnToString (a % 10 ^ d)))
    have htdigits : ∀ c ∈ stripTrailingZeros (padStart d '0' (bnToString (a % 10 ^ d))),
        isDigitChar c := by
      intro c hc
      rcases mem_padStart (mem_stripTrailingZeros hc) with h1 | h1
      · exact mem_bnToString_isDigit h1
      · subst h1; rfl
    rw [hfmt, parseTokenAmount_with_dot d hqdigits htdigits, digitsToNat_bnToString]
    have hklen : (stripTrailingZeros (padStart d '0' (bnToString (a % 10 ^ d)))).length + k
        = d := by
      have := congrArg List.length hk
      rw [List.length_append, List.length_replicate] at this
      omega
    have hpad : padEnd d '0' (stripTrailingZeros (padStart d '0' (bnToString (a % 10 ^ d))))
        = padStart d '0' (bnToString (a % 10 ^ d)) := by
      unfold padEnd
      have h5 : d - (stripTrailingZeros (padStart d '0' (bnToString (a % 10 ^ d)))).length
          = k := by omega
      rw [h5]
      exact hk.symm
    rw [hpad]
    have htake : (padStart d '0' (bnToString (a % 10 ^ d))).take d
        = padStart d '0' (bnToString (a % 10 ^ d)) :=
      List.take_of_length_le (le_of_eq hlenR)
    rw [htake, digitsToNat_padStart, digitsToNat_bnToString]
    congr 1
    rw [Nat.mul_comm]
    omega

/-! ### `toBigInt` string-acceptance lemmas -/

/-- The characters that can appear in a successfully parsed `BigInt` string
literal: hexadecimal digits (which include the decimal digits and the letters
`a`–`f`/`A`–`F`, hence also the binary marker letters `b`/`B`), the signs, and
the radix markers `x`/`X`/`o`/`O`. -/
def bigIntLiteralChar (c : Char) : Bool :=
  (hexDigitVal c).isSome || c == '+' || c == '-' || c == 'x' || c == 'X' || c == 'o' || c == 'O'

theorem hex_isSome_of_radix {r : Nat} {c : Char}
    (h : (radixDigitVal r c).isSome = true) : (hexDigitVal c).isSome = true := by
  unfold radixDigitVal at h
  cases hx : hexDigitVal c with
  | none => rw [hx] at h; simp at h
  | some v => rfl

theorem bigIntLiteralChar_of_radix {r : Nat} {c : Char}
    (h : (radixDigitVal r c).isSome = true) : bigIntLiteralChar c = true := by
  unfold bigIntLiteralChar
  rw [hex_isSome_of_radix h]
  rfl

theorem radix_foldl_none {r : Nat} :
    ∀ l : List Char,
      l.foldl (fun acc c => acc.bind fun a => (radixDigitVal r c).map fun v => r * a + v) none
        = none := by
  intro l
  induction l with
  | nil => rfl
  | cons c t ih => simpa using ih

theorem radix_foldl_chars {r : Nat} :
    ∀ (l : List Char) (acc : Option Nat) (n : Nat),
      l.foldl (fun acc c => acc.bind fun a => (radixDigitVal r c).map fun v => r * a + v) acc
        = some n →
      ∀ c ∈ l, (radixDigitVal r c).isSome = true := by
  intro l
  induction l with
  | nil => intro acc n _ c hc; simp at hc
  | cons c0 t ih =>
    intro acc n h c hc
    rw [List.foldl_cons] at h
    have hd : (radixDigitVal r c0).isSome = true := by
      cases hx : radixDigitVal r c0 with
      | none =>
        have hacc : (acc.bind fun a => (radixDigitVal r c0).map fun v => r * a + v) = none := by
          cases acc with
          | none => rfl
          | some a => simp [hx]
        rw [hacc, radix_foldl_none] at h
        exact absurd h (by simp)
      | some v => rfl
    rcases List.mem_cons.mp hc with rfl | hct
    · exact hd
    · exact ih _ n h c hct

theorem radixValue_chars {r : Nat} {l : List Char} {n : Nat}
    (h : radixValue r l = some n) : ∀ c ∈ l, (radixDigitVal r c).isSome = true := by
  unfold radixValue at h
  by_cases hl : l = []
  · subst hl; intro c hc; simp at hc
  · rw [if_neg hl] at h
    exact radix_foldl_chars l (some 0) n h

theorem jsStringToBigInt_chars {l : List Char} {v : Int}
    (h : jsStringToBigInt l = some v) : ∀ c ∈ l, bigIntLiteralChar c = true := by
  cases l with
  | nil => intro c hc; simp at hc
  | cons c0 rest =>
    intro c hc
    simp only [jsStringToBigInt] at h
    by_cases h1 : c0 = '+'
    · rw [if_pos h1] at h
      obtain ⟨n, hn, _⟩ := Option.map_eq_some'.mp h
      rcases List.mem_cons.mp hc with rfl | hct
      · rw [h1]; rfl
      · exact bigIntLiteralChar_of_radix (radixValue_chars hn c hct)
    · rw [if_neg h1] at h
      by_cases h2 : c0 = '-'
      · rw [if_pos h2] at h
        obtain ⟨n, hn, _⟩ := Option.map_eq_some'.mp h
        rcases List.mem_cons.mp hc with rfl | hct
        · rw [h2]; rfl
        · exact bigIntLiteralChar_of_radix (radixValue_chars hn c hct)
      · rw [if_neg h2] at h
        by_cases h3 : c0 = '0'
        · rw [if_pos h3] at h
          cases rest with
          | nil =>
            rcases List.mem_cons.mp hc with rfl | hct
            · rw [h3]; rfl
            · simp at hct
          | cons c2 rest2 =>
            dsimp only at h
            by_cases h4 : c2 = 'x' ∨ c2 = 'X'
            · rw [if_pos h4] at h
              obtain ⟨n, hn, _⟩ := Option.map_eq_some'.mp h
              rcases List.mem_cons.mp hc with rfl | hct
              · rw [h3]; rfl
              · rcases List.mem_cons.mp hct with rfl | hct2
                · rcases h4 with rfl | rfl <;> rfl
                · exact bigIntLiteralChar_of_radix (radixValue_chars hn c hct2)
            · rw [if_neg h4] at h
              by_cases h5 : c2 = 'o' ∨ c2 = 'O'
              · rw [if_pos h5] at h
                obtain ⟨n, hn, _⟩ := Option.map_eq_some'.mp h
                rcases List.mem_cons.mp hc with rfl | hct
                · rw [h3]; rfl
                · rcases List.mem_cons.mp hct with rfl | hct2
                  · rcases h5 with rfl | rfl <;> rfl
                  · exact bigIntLiteralChar_of_radix (radixValue_chars hn c hct2)
              · rw [if_neg h5] at h
                by_cases h6 : c2 = 'b' ∨ c2 = 'B'
                · rw [if_pos h6] at h
                  obtain ⟨n, hn, _⟩ := Option.map_eq_some'.mp h
                  rcases List.mem_cons.mp hc with rfl | hct
                  · rw [h3]; rfl
                  · rcases List.mem_cons.mp hct with rfl | hct2
                    · rcases h6 with rfl | rfl <;> rfl
                    · exact bigIntLiteralChar_of_radix (radixValue_chars hn c hct2)
                · rw [if_neg h6] at h
                  obtain ⟨n, hn, _⟩ := Option.map_eq_some'.mp h
                  exact bigIntLiteralChar_of_radix (radixValue_chars hn c hc)
        · rw [if_neg h3] at h
          obtain ⟨n, hn, _⟩ := Option.map_eq_some'.mp h
          exact bigIntLiteralChar_of_radix (radixValue_chars hn c hc)

theorem mem_dropWhile_of_mem {p : Char → Bool} :
    ∀ {l : List Char} {c : Char}, c ∈ l → p c = false → c ∈ l.dropWhile p := by
  intro l
  induction l with
  | nil => intro c hc _; simp at hc
  | cons a t ih =>
    intro c hc hp
    rw [List.dropWhile_cons]
    by_cases ha : p a = true
    · rw [if_pos ha]
      rcases List.mem_cons.mp hc with rfl | hct
      · rw [hp] at ha; exact absurd ha (by simp)
      · exact ih hct hp
    · rw [if_neg ha]
      exact hc

theorem mem_jsTrim {c : Char} {s : List Char} (hc : c ∈ s)
    (hw : jsWhitespace c = false) : c ∈ jsTrim s := by
  unfold jsTrim
  rw [List.mem_reverse]
  exact mem_dropWhile_of_mem (List.mem_reverse.mpr (mem_dropWhile_of_mem hc hw)) hw

/-! ### Claim theorems -/

/-- C1: for every `total ≥ 0` and `bps ∈ [0, 10000]`, `splitAmountByBps`
succeeds and returns a pair (buyer share, seller share) whose components sum
exactly back to `total`: no value is lost to the floor division. -/
theorem splitAmountByBps_preserves_total (total bps : Int)
    (h1 : 0 ≤ total) (h2 : 0 ≤ bps) (h3 : bps ≤ 10000) :
    ∃ p : Int × Int, splitAmountByBps total bps = some p ∧ p.1 + p.2 = total := by
  have hcond : ¬(bps < 0 ∨ bps > 10000) := by omega
  unfold splitAmountByBps applyBps
  rw [if_neg hcond, if_neg hcond]
  refine ⟨((total * bps).tdiv 10000, total - (total * bps).tdiv 10000), rfl, ?_⟩
  omega

theorem splitAmountByBps_preserves_total_witness :
    ∃ p : Int × Int, splitAmountByBps 1000 250 = some p ∧ p.1 + p.2 = 1000 :=
  splitAmountByBps_preserves_total 1000 250 (by decide) (by decide) (by decide)

/-- C2: formatting a non-negative integer amount at any decimal count and
parsing the resulting string back at the same decimal count returns the
original amount: `parseTokenAmount (formatTokenAmount a d) d = some a`. -/
theorem parseTokenAmount_formatTokenAmount (a d : Nat) :
    parseTokenAmount (formatTokenAmount a d) d = some a :=
  parse_format_roundtrip a d

/-- C3 counterexample: `parseTokenAmount "1.2.3" 6` does not fail — contrary
to the claim, the destructuring keeps only the first two `"."`-separated
fields and silently ignores the rest. -/
theorem parseTokenAmount_dot_dot_not_error :
    parseTokenAmount ("1.2.3".toList) 6 ≠ none := by decide

/-- C3 amended: `parseTokenAmount "1.2.3" 6` does not reject the input; it
parses it as `"1.2"` would be parsed, returning `1_200_000`, with the third
field `"3"` silently discarded. -/
theorem parseTokenAmount_dot_dot_value :
    parseTokenAmount ("1.2.3".toList) 6 = some 1200000 := by decide

/-- C4: for every non-negative amount and `bps ∈ [0, 10000]`, `applyBps`
returns exactly `floor(amount * bps / 10000)` in exact integer
arithmetic. -/
theorem applyBps_computes_floor (amount bps : Int)
    (h1 : 0 ≤ amount) (h2 : 0 ≤ bps) (h3 : bps ≤ 10000) :
    applyBps amount bps = some ((amount * bps).fdiv 10000) := by
  have hcond : ¬(bps < 0 ∨ bps > 10000) := by omega
  unfold applyBps
  rw [if_neg hcond]
  congr 1
  rw [Int.tdiv_eq_ediv (mul_nonneg h1 h2) (by omega),
    Int.fdiv_eq_ediv _ (by omega : (0 : Int) ≤ 10000)]

theorem applyBps_computes_floor_witness : applyBps 1000 250 = some 25 := by
  have h := applyBps_computes_floor 1000 250 (by decide) (by decide) (by decide)
  rw [h]
  decide

/-- C5: `applyBps` fails exactly when `bps` lies outside `[0, 10000]` (so in
particular for `bps = 10001` and `bps = -1`), and returns a value for every
`bps` in range. -/
theorem applyBps_none_iff_out_of_range (amount bps : Int) :
    applyBps amount bps = none ↔ bps < 0 ∨ 10000 < bps := by
  unfold applyBps
  by_cases h : bps < 0 ∨ bps > 10000
  · rw [if_pos h]
    simpa using h
  · rw [if_neg h]
    simpa using h

/-- Modelled from the spec sentence describing `formatDecimal`
(= `formatTokenAmount`): split `amount` into quotient and remainder by
`10^decimals`, left-pad the remainder to `decimals` digits, strip trailing
zeros from the fractional part, and omit the decimal point entirely when the
fractional part is empty after stripping.  Written from the spec's words to
be compared against the source-derived `formatTokenAmount`. -/
def formatDecimalSpec (amount decimals : Nat) : List Char :=
  let quotient := amount / 10 ^ decimals
  let remainder := amount % 10 ^ decimals
  let fractionalPart := stripTrailingZeros (padStart decimals '0' (bnToString remainder))
  if fractionalPart = [] then bnToString quotient
  else bnToString quotient ++ '.' :: fractionalPart

/-- C6: `formatTokenAmount` computes exactly the string described by the
spec (quotient/remainder split, left-padding, trailing-zero stripping,
decimal point omitted when the stripped fraction is empty), and in
particular maps `1_000_000 ↦ "1"`, `1_500_000 ↦ "1.5"`,
`1_000_001 ↦ "1.000001"` at 6 decimals. -/
theorem formatTokenAmount_matches_spec :
    (∀ a d, formatTokenAmount a d = formatDecimalSpec a d)
    ∧ formatTokenAmount 1000000 6 = "1".toList
    ∧ formatTokenAmount 1500000 6 = "1.5".toList
    ∧ formatTokenAmount 1000001 6 = "1.000001".toList :=
  ⟨fun _ _ => rfl, by decide, by decide, by decide⟩

/-- C7: on a digit-only whole part, optionally followed by a decimal point
and a digit-only fractional part, `parseTokenAmount` returns
`whole * 10^d` plus the fractional digits right-padded with zeros or
truncated to exactly `d` digits and read as an integer (truncation, not
rounding); in particular `parseTokenAmount "100" 6 = 100_000_000`. -/
theorem parseTokenAmount_truncates :
    (∀ (w f : List Char) (d : Nat), (∀ c ∈ w, isDigitChar c) → (∀ c ∈ f, isDigitChar c) →
      parseTokenAmount (w ++ '.' :: f) d
        = some (digitsToNat w * 10 ^ d + digitsToNat ((padEnd d '0' f).take d)))
    ∧ (∀ (w : List Char) (d : Nat), (∀ c ∈ w, isDigitChar c) →
      parseTokenAmount w d = some (digitsToNat w * 10 ^ d))
    ∧ parseTokenAmount ("100".toList) 6 = some 100000000 :=
  ⟨fun _ f d hw hf => parseTokenAmount_with_dot d hw hf,
   fun _ d hw => parseTokenAmount_no_dot d hw,
   by decide⟩

theorem parseTokenAmount_truncates_witness :
    parseTokenAmount ("12.345".toList) 2 = some 1234 := by
  have h := parseTokenAmount_truncates.1 ['1', '2'] ['3', '4', '5'] 2 (by decide) (by decide)
  have e : "12.345".toList = ['1', '2'] ++ '.' :: ['3', '4', '5'] := rfl
  rw [e, h]
  decide

/-- C8: `isMultipleOfStep` fails exactly when `step ≤ 0`, and for positive
`step` returns `true` exactly when `amount mod step = 0`. -/
theorem isMultipleOfStep_spec (amount step : Int) :
    (isMultipleOfStep amount step = none ↔ step ≤ 0)
    ∧ (0 < step → (isMultipleOfStep amount step = some true ↔ amount.tmod step = 0)) := by
  unfold isMultipleOfStep
  by_cases h : step ≤ 0
  · rw [if_pos h]
    exact ⟨by simpa using h, fun hpos => absurd hpos (by omega)⟩
  · rw [if_neg h]
    refine ⟨by simpa using h, fun _ => ?_⟩
    constructor
    · intro hsome
      have := Option.some_injective _ hsome
      exact beq_iff_eq.mp this
    · intro hmod
      rw [hmod]
      rfl

theorem isMultipleOfStep_spec_witness :
    isMultipleOfStep 100 25 = some true ∧ isMultipleOfStep 100 0 = none :=
  ⟨((isMultipleOfStep_spec 100 25).2 (by decide)).mpr (by decide),
   (isMultipleOfStep_spec 100 0).1.mpr (by decide)⟩

/-- C9 counterexample: `toBigInt "0x1A"` succeeds with value 26 even though
the string contains the non-numeric characters `x` and `A`: the native
`BigInt` constructor accepts radix-prefixed integer literals, so it is not
the case that every string with non-numeric content fails. -/
theorem toBigIntStr_hex_accepted :
    toBigIntStr ("0x1A".toList) = some 26
    ∧ 'x' ∈ "0x1A".toList ∧ ('x'.isDigit = false) := by decide

/-- C9 amended: `toBigInt` fails on every string containing a decimal point,
and on every string containing a character that is neither trimmable
whitespace nor one of the characters that can occur in a valid `BigInt`
integer literal (hexadecimal digits, signs, and the radix markers); strings
such as `"0x1A"`, though containing letters, are valid hex literals and
succeed. -/
theorem toBigIntStr_rejects (s : List Char) :
    (('.' ∈ s) → toBigIntStr s = none)
    ∧ ((∃ c ∈ s, jsWhitespace c = false ∧ bigIntLiteralChar c = false) →
        toBigIntStr s = none) := by
  constructor
  · intro hdot
    have h1 : '.' ∈ jsTrim s := mem_jsTrim hdot rfl
    unfold toBigIntStr
    rw [if_pos (by simpa [List.contains] using List.elem_iff.mpr h1)]
  · rintro ⟨c, hc, hw, hb⟩
    have h1 : c ∈ jsTrim s := mem_jsTrim hc hw
    cases heq : toBigIntStr s with
    | none => rfl
    | some v =>
      exfalso
      unfold toBigIntStr at heq
      by_cases hdot : (jsTrim s).contains '.'
      · rw [if_pos hdot] at heq
        exact absurd heq (by simp)
      · rw [if_neg hdot] at heq
        have := jsStringToBigInt_chars heq c h1
        rw [hb] at this
        exact absurd this (by simp)

theorem toBigIntStr_rejects_witness :
    toBigIntStr ("1.5".toList) = none ∧ toBigIntStr ("hello".toList) = none :=
  ⟨(toBigIntStr_rejects ("1.5".toList)).1 (by decide),
   (toBigIntStr_rejects ("hello".toList)).2 ⟨'h', by decide, by decide, by decide⟩⟩

/-- C10: `calculateFee` performs no basis-point validation: for every integer
`feeBps` (including values outside `[0, 10000]`) it returns
`amount * feeBps / 10000` with truncating integer division, and
`calculateAmountAfterFee` returns `amount` minus that fee; for `feeBps` in
`[0, 10000]` and non-negative `amount` the fee coincides with the validated
`applyBps`. -/
theorem calculateFee_unvalidated (amount feeBps : Int) :
    calculateFee amount feeBps = (amount * feeBps).tdiv 10000
    ∧ calculateAmountAfterFee amount feeBps = amount - calculateFee amount feeBps
    ∧ (0 ≤ feeBps → feeBps ≤ 10000 → 0 ≤ amount →
        applyBps amount feeBps = some (calculateFee amount feeBps)) := by
  refine ⟨rfl, rfl, fun h1 h2 _ => ?_⟩
  unfold applyBps calculateFee
  rw [if_neg (by omega : ¬(feeBps < 0 ∨ feeBps > 10000))]

theorem calculateFee_unvalidated_witness :
    applyBps 1000 250 = some (calculateFee 1000 250)
    ∧ calculateFee 1000 10001 = 1000
    ∧ calculateFee 1000 (-1) = 0 :=
  ⟨(calculateFee_unvalidated 1000 250).2.2 (by decide) (by decide) (by decide),
   by decide, by decide⟩

end SolanaKit
